import Mathlib

/-
Shallow embedding of the font style sorter in
`src/proofing_helpers/fontSorter.py` (the StyleSorter component of the
spec).  Strings are modelled as Lean `String`s; the case-insensitive
regular-expression tests of the source are modelled as ASCII-lowered
substring tests (every vocabulary token is ASCII).  Python's arbitrary
precision integers are modelled as `Nat` (no value in this program is
ever negative).
-/

/-- ASCII lowering of a character list, modelling the effect of
`re.IGNORECASE` on the ASCII vocabulary tokens. -/
def lowerL (s : List Char) : List Char := s.map Char.toLower

/-- Boolean test that the first list is an initial segment of the second. -/
def startsWithCL : List Char → List Char → Bool
  | [], _ => true
  | _ :: _, [] => false
  | c :: p, d :: s => if c = d then startsWithCL p s else false

/-- Boolean test that `needle` occurs as a contiguous substring of `hay`. -/
def containsSub (needle : List Char) : List Char → Bool
  | [] => startsWithCL needle []
  | c :: rest => startsWithCL needle (c :: rest) || containsSub needle rest

/-- Embedding of the test `re.match(rf'(.+?)?(token)(.+?)?', ps_name,
re.IGNORECASE)` used throughout `fontSorter.py`: the leading group is an
optional non-greedy prefix and the trailing group is optional, so the
pattern succeeds exactly when `token` occurs as a substring of `ps_name`,
case-insensitively. -/
def matches_token (ps_name token : String) : Bool :=
  containsSub (lowerL token.toList) (lowerL ps_name.toList)

/-- Python's lexicographic sequence comparison `<`: skip the longest common
prefix of equal elements, then compare by the element order (shorter
sequence first when one is a proper initial segment of the other). -/
def lexLt [DecidableEq α] (lt : α → α → Bool) : List α → List α → Bool
  | [], [] => false
  | [], _ :: _ => true
  | _ :: _, [] => false
  | a :: as, b :: bs => if a = b then lexLt lt as bs else lt a b

/-- Python character comparison `<`: code points. -/
def charLtB (a b : Char) : Bool := decide (a.toNat < b.toNat)

/-- Python string `<` on strings (lexicographic on code points). -/
def strLtB (a b : String) : Bool := lexLt charLtB a.toList b.toList

/-- Python string `<=` on strings. -/
def strLeB (a b : String) : Bool := strLtB a b || decide (a = b)

/-- Python list `<` on lists of strings (lexicographic, elementwise). -/
def listStrLtB (a b : List String) : Bool := lexLt strLtB a b

/-- Python tuple `<=` on pairs whose first component is an int, as
compared by `sorted()` in `find_longest_match`. -/
def pairLe [DecidableEq α] (lt : α → α → Bool) (p q : Nat × α) : Bool :=
  decide (p.1 < q.1) || (decide (p.1 = q.1) && (lt p.2 q.2 || decide (p.2 = q.2)))

/-- Tuple `<=` on `(int, str)` pairs (flat weight vocabulary). -/
def pairLeF (p q : Nat × String) : Bool := pairLe strLtB p q

/-- Tuple `<=` on `(int, list)` pairs (grouped opsz and width vocabularies). -/
def pairLeG (p q : Nat × List String) : Bool := pairLe listStrLtB p q

/-- Embedding of Python `list.index` (first position of an equal element;
made total by returning the length when the element is absent, a case
unreachable at every call site of the source). -/
def pyIndex [DecidableEq α] : List α → α → Nat
  | [], _ => 0
  | x :: rest, v => if x = v then 0 else pyIndex rest v + 1

/-- Vocabulary `opsz_names` of `fontSorter.py` (lines 14-25). -/
def opsz_names : List (List String) :=
  [["null"], ["caption", "capt"], ["5pt"], ["7pt"], ["smalltext", "smtxt"],
   ["text"], ["normal"], ["subhead", "subh"], ["display", "disp"],
   ["large"], ["poster"]]

/-- Vocabulary `width_names` of `fontSorter.py` (lines 26-37). -/
def width_names : List (List String) :=
  [["extracondensed", "extracond", "xcondensed", "xcond"], ["narrow"],
   ["condensed", "cond", "cnd"], ["semicondensed", "semicond", "semicnd", "semicn"],
   ["normal"], ["semiextended", "semiext"], ["extended"], ["expanded"],
   ["wide"], ["xwide"]]

/-- Vocabulary `weight_names` of `fontSorter.py` (lines 38-55). -/
def weight_names : List String :=
  ["hair", "ultralight", "thin", "extralight", "light", "semilight", "book",
   "regular", "medium", "semibold", "bold", "extrabold", "heavy", "black",
   "ultra", "fat"]

/-- The constant `DEFAULT_SCORE` of `fontSorter.py`. -/
def DEFAULT_SCORE : Nat × Nat × Nat :=
  (pyIndex opsz_names ["normal"], pyIndex width_names ["normal"],
   pyIndex weight_names "regular")

/-- Index list built by the matching loop of `get_attr_score` for a grouped
axis: one occurrence of the entry index is appended per matching
sub-variant.  `i` is the position of the first entry of the remaining list. -/
def axis_matches_g (ps_name : String) : List (List String) → Nat → List Nat
  | [], _ => []
  | grp :: rest, i =>
      (grp.filter (fun v => matches_token ps_name v)).map (fun _ => i) ++
        axis_matches_g ps_name rest (i + 1)

/-- Index list built by the matching loop of `get_attr_score` for the flat
weight axis. -/
def axis_matches_f (ps_name : String) : List String → Nat → List Nat
  | [], _ => []
  | v :: rest, i =>
      (if matches_token ps_name v then [i] else []) ++
        axis_matches_f ps_name rest (i + 1)

/-- The `found_names` list of `find_longest_match` for a grouped axis:
pairs `(len(entry), entry)` over the entries whose index occurs in the
match list (each matched index contributes once). -/
def found_entries_g (nm : List Nat) : List (List String) → Nat → List (Nat × List String)
  | [], _ => []
  | grp :: rest, i =>
      (if i ∈ nm then [(grp.length, grp)] else []) ++
        found_entries_g nm rest (i + 1)

/-- The `found_names` list of `find_longest_match` for the flat weight axis. -/
def found_entries_f (nm : List Nat) : List String → Nat → List (Nat × String)
  | [], _ => []
  | v :: rest, i =>
      (if i ∈ nm then [(v.length, v)] else []) ++
        found_entries_f nm rest (i + 1)

/-- Embedding of `find_longest_match` for a grouped axis:
`sorted(found_names)[-1]` is the last element of the list sorted by the
Python tuple order, then `attr_list.index` recovers its position.  The
dummy fallback of `getLastD` is unreachable (callers pass a nonempty
match list). -/
def find_longest_match_g (attr_list : List (List String)) (nm : List Nat) : Nat :=
  let sortedFound :=
    List.insertionSort (fun p q => pairLeG p q = true) (found_entries_g nm attr_list 0)
  pyIndex attr_list (sortedFound.getLastD (0, [])).2

/-- Embedding of `find_longest_match` for the flat weight axis. -/
def find_longest_match_f (attr_list : List String) (nm : List Nat) : Nat :=
  let sortedFound :=
    List.insertionSort (fun p q => pairLeF p q = true) (found_entries_f nm attr_list 0)
  pyIndex attr_list (sortedFound.getLastD (0, "")).2

/-- Embedding of `get_attr_score` for the grouped opsz and width axes (the
`isinstance(variant, list)` branch of the source loop). -/
def get_attr_score_g (ps_name : String) (attr_list : List (List String))
    (fallback : List String) : Nat :=
  let nm := axis_matches_g ps_name attr_list 0
  if nm = [] then pyIndex attr_list fallback else find_longest_match_g attr_list nm

/-- Embedding of `get_attr_score` for the flat weight axis (the `else`
branch of the source loop). -/
def get_attr_score_f (ps_name : String) (attr_list : List String)
    (fallback : String) : Nat :=
  let nm := axis_matches_f ps_name attr_list 0
  if nm = [] then pyIndex attr_list fallback else find_longest_match_f attr_list nm

/-- Embedding of `get_italic_score`: `re.match(r'.*(it)(alic)?.*', ps_name,
re.IGNORECASE)` succeeds exactly when `it` occurs as a substring
(case-insensitively), because the group `(alic)?` is optional and `.*`
surrounds everything. -/
def get_italic_score (ps_name : String) : Nat :=
  if containsSub (lowerL "it".toList) (lowerL ps_name.toList) then 1 else 0

/-- Embedding of the match `re.match(r'.+?(\d+?)$', ps_name)`: the
non-greedy `.+?` takes the shortest nonempty prefix whose remainder is a
nonempty all-digit suffix, and the group is that suffix; `none` when no
such split exists. -/
def regex_index_group : List Char → Option (List Char)
  | [] => none
  | _ :: rest =>
      if rest ≠ [] ∧ rest.all (fun c => c.isDigit) = true then some rest
      else regex_index_group rest

/-- Numeric value of a list of decimal digit characters (Python `int`). -/
def digitsVal (ds : List Char) : Nat := ds.foldl (fun a c => 10 * a + (c.toNat - 48)) 0

/-- Embedding of `get_index_score`. -/
def get_index_score (ps_name : String) : Nat :=
  match regex_index_group ps_name.toList with
  | some ds => digitsVal ds
  | none => 0

/-- The combined token list of `test_outlier` (`itertools.chain` over the
three vocabularies plus the italic tokens). -/
def all_attrs : List String :=
  opsz_names.flatten ++ width_names.flatten ++ weight_names ++ ["Italic", "Ita", "It"]

/-- Embedding of `test_outlier`: true exactly when no token of any
vocabulary (nor any italic token) matches the name. -/
def test_outlier (ps_name : String) : Bool :=
  ! all_attrs.any (fun a => matches_token ps_name a)

/-- Decimal digits of `n`, zero-padded on the left to at least `w`
characters, mirroring Python format specifiers such as `{n:03d}` for
nonnegative `n` (wider values keep all their digits). -/
def padNum (n w : Nat) : List Char :=
  let ds := Nat.toDigits 10 n
  List.replicate (w - ds.length) '0' ++ ds

/-- Embedding of `make_hash`: the characters of
`f'{opsz:03d}{width:03d}{weight:03d}{index:02d}{it}'`. -/
def make_hash (o w wt ix it : Nat) : List Char :=
  padNum o 3 ++ padNum w 3 ++ padNum wt 3 ++ padNum ix 2 ++ padNum it 1

/-- The weight score after the adjustment of `get_score`: when italics are
not alternated and the name is italic, the weight score is increased by
100 so italics sort after all Romans. -/
def weight_adj (ps_name : String) (alternate_italics : Bool) : Nat :=
  if alternate_italics = false ∧ get_italic_score ps_name = 1 then
    get_attr_score_f ps_name weight_names "regular" + 100
  else
    get_attr_score_f ps_name weight_names "regular"

/-- The five components computed by `get_score` just before `make_hash` is
applied: attribute scores (weight already adjusted), index score, italic
score, and the outlier override forcing the three axis scores to 999. -/
def score_tuple (ps_name : String) (alternate_italics : Bool) :
    Nat × Nat × Nat × Nat × Nat :=
  if (get_attr_score_g ps_name opsz_names ["normal"],
      get_attr_score_g ps_name width_names ["normal"],
      weight_adj ps_name alternate_italics) = DEFAULT_SCORE ∧
      test_outlier ps_name = true then
    (999, 999, 999, get_index_score ps_name, get_italic_score ps_name)
  else
    (get_attr_score_g ps_name opsz_names ["normal"],
     get_attr_score_g ps_name width_names ["normal"],
     weight_adj ps_name alternate_italics,
     get_index_score ps_name, get_italic_score ps_name)

/-- Embedding of `get_score`: the style hash string (as characters). -/
def get_score (ps_name : String) (alternate_italics : Bool) : List Char :=
  match score_tuple ps_name alternate_italics with
  | (o, w, wt, ix, it) => make_hash o w wt ix it

/-- The integer sort key `int(style_hash)` used by `sort_ps_names`. -/
def scoreInt (ps_name : String) (alternate_italics : Bool) : Nat :=
  digitsVal (get_score ps_name alternate_italics)

/-- Embedding of one step of the loop
`matches.setdefault(int(style_hash), []).append(ps_name)`: a Python dict
is an insertion-ordered association list with unique keys. -/
def setdefault_append (m : List (Nat × List String)) (k : Nat) (v : String) :
    List (Nat × List String) :=
  match m with
  | [] => [(k, [v])]
  | (k2, g) :: rest =>
      if k2 = k then (k2, g ++ [v]) :: rest
      else (k2, g) :: setdefault_append rest k v

/-- The `matches` dict of `sort_ps_names` after the scoring loop. -/
def build_matches (ps_name_list : List String) (alternate_italics : Bool) :
    List (Nat × List String) :=
  ps_name_list.foldl (fun m n => setdefault_append m (scoreInt n alternate_italics) n) []

/-- Embedding of `sort_ps_names`: group the names by integer style hash,
sort each group lexicographically (`font_list.sort()`), sort the groups by
key (`sorted(matches.items())`, whose tuple comparison never reaches the
second component because dict keys are unique), and concatenate. -/
def sort_ps_names (ps_name_list : List String) (alternate_italics : Bool) :
    List String :=
  let ms := build_matches ps_name_list alternate_italics
  let ms2 := ms.map (fun p => (p.1, List.insertionSort (fun a b => strLeB a b = true) p.2))
  let ms3 := List.insertionSort (fun p q : Nat × List String => p.1 ≤ q.1) ms2
  (ms3.map Prod.snd).flatten

/-- Modelled from the spec: the entire trailing run of digits of a name
(the spec reading of "if `name` ends in digits, parse them as an integer
index"), used to compare against the source's `get_index_score`. -/
def spec_trailing_run (ps_name : String) : List Char :=
  (ps_name.toList.reverse.takeWhile (fun c => c.isDigit)).reverse

/-- The sort key relation on names that `sort_ps_names` realizes: ascending
integer style hash, ties by Python string order. -/
def keyLe (a : Bool) (x y : String) : Prop :=
  scoreInt x a < scoreInt y a ∨ (scoreInt x a = scoreInt y a ∧ strLeB x y = true)

/-! Order-theoretic facts about the embedded Python comparisons. -/

theorem lexLt_irrefl [DecidableEq α] (lt : α → α → Bool)
    (hirr : ∀ x, lt x x = false) : ∀ l, lexLt lt l l = false
  | [] => rfl
  | a :: as => by simp [lexLt, lexLt_irrefl lt hirr as]

theorem lexLt_asymm [DecidableEq α] (lt : α → α → Bool)
    (hasym : ∀ x y, lt x y = true → lt y x = false) :
    ∀ a b, lexLt lt a b = true → lexLt lt b a = false
  | [], [], h => by simp [lexLt] at h
  | [], _ :: _, _ => rfl
  | _ :: _, [], h => by simp [lexLt] at h
  | a :: as, b :: bs, h => by
      by_cases hab : a = b
      · subst hab
        simp only [lexLt, if_pos rfl] at h ⊢
        exact lexLt_asymm lt hasym as bs h
      · have hba : b ≠ a := fun e => hab e.symm
        simp only [lexLt, if_neg hab, if_neg hba] at h ⊢
        exact hasym a b h

theorem lexLt_trans [DecidableEq α] (lt : α → α → Bool)
    (hirr : ∀ x, lt x x = false)
    (hasym : ∀ x y, lt x y = true → lt y x = false)
    (htr : ∀ x y z, lt x y = true → lt y z = true → lt x z = true) :
    ∀ a b c, lexLt lt a b = true → lexLt lt b c = true → lexLt lt a c = true
  | [], [], _, h1, _ => by simp [lexLt] at h1
  | [], _ :: _, [], _, h2 => by simp [lexLt] at h2
  | [], _ :: _, _ :: _, _, _ => rfl
  | _ :: _, [], _, h1, _ => by simp [lexLt] at h1
  | _ :: _, _ :: _, [], _, h2 => by simp [lexLt] at h2
  | a :: as, b :: bs, c :: cs, h1, h2 => by
      by_cases hab : a = b
      · subst hab
        by_cases hac : a = c
        · subst hac
          simp only [lexLt, if_pos rfl] at h1 h2 ⊢
          exact lexLt_trans lt hirr hasym htr as bs cs h1 h2
        · simp only [lexLt, if_pos rfl, if_neg hac] at h1 h2 ⊢
          exact h2
      · by_cases hbc : b = c
        · subst hbc
          simp only [lexLt, if_neg hab] at h1 ⊢
          exact h1
        · simp only [lexLt, if_neg hab, if_neg hbc] at h1 h2
          have hac : a ≠ c := by
            intro e
            subst e
            exact absurd h1 (by simp [hasym b a h2])
          simp only [lexLt, if_neg hac]
          exact htr a b c h1 h2

theorem lexLt_total [DecidableEq α] (lt : α → α → Bool)
    (htot : ∀ x y, x ≠ y → lt x y = true ∨ lt y x = true) :
    ∀ a b, a ≠ b → lexLt lt a b = true ∨ lexLt lt b a = true
  | [], [], h => absurd rfl h
  | [], _ :: _, _ => Or.inl rfl
  | _ :: _, [], _ => Or.inr rfl
  | a :: as, b :: bs, h => by
      by_cases hab : a = b
      · subst hab
        have hne : as ≠ bs := fun e => h (by rw [e])
        rcases lexLt_total lt htot as bs hne with h1 | h1
        · exact Or.inl (by simp [lexLt, h1])
        · exact Or.inr (by simp [lexLt, h1])
      · have hba : b ≠ a := fun e => hab e.symm
        rcases htot a b hab with h1 | h1
        · exact Or.inl (by simp [lexLt, hab, h1])
        · exact Or.inr (by simp [lexLt, hba, h1])

theorem charLtB_irrefl (x : Char) : charLtB x x = false := by simp [charLtB]

theorem charLtB_asymm (x y : Char) (h : charLtB x y = true) : charLtB y x = false := by
  simp only [charLtB, decide_eq_true_eq] at h
  simp only [charLtB, decide_eq_false_iff_not]
  omega

theorem charLtB_trans (x y z : Char) (h1 : charLtB x y = true)
    (h2 : charLtB y z = true) : charLtB x z = true := by
  simp only [charLtB, decide_eq_true_eq] at h1 h2 ⊢
  omega

theorem charLtB_total (x y : Char) (h : x ≠ y) :
    charLtB x y = true ∨ charLtB y x = true := by
  have hne : x.toNat ≠ y.toNat := by
    intro e
    have : Char.ofNat x.toNat = Char.ofNat y.toNat := by rw [e]
    rw [Char.ofNat_toNat, Char.ofNat_toNat] at this
    exact h this
  simp only [charLtB, decide_eq_true_eq]
  omega

theorem toList_injective {x y : String} (h : x.toList = y.toList) : x = y :=
  String.ext h

theorem strLtB_irrefl (x : String) : strLtB x x = false :=
  lexLt_irrefl charLtB charLtB_irrefl _

theorem strLtB_asymm (x y : String) (h : strLtB x y = true) : strLtB y x = false :=
  lexLt_asymm charLtB charLtB_asymm _ _ h

theorem strLtB_trans (x y z : String) (h1 : strLtB x y = true)
    (h2 : strLtB y z = true) : strLtB x z = true :=
  lexLt_trans charLtB charLtB_irrefl charLtB_asymm charLtB_trans _ _ _ h1 h2

theorem strLtB_total (x y : String) (h : x ≠ y) :
    strLtB x y = true ∨ strLtB y x = true :=
  lexLt_total charLtB charLtB_total _ _ (fun e => h (toList_injective e))

theorem strLeB_refl (x : String) : strLeB x x = true := by simp [strLeB]

theorem strLeB_total (x y : String) : strLeB x y = true ∨ strLeB y x = true := by
  by_cases h : x = y
  · subst h
    exact Or.inl (strLeB_refl x)
  · rcases strLtB_total x y h with h1 | h1
    · exact Or.inl (by simp [strLeB, h1])
    · exact Or.inr (by simp [strLeB, h1])

theorem strLeB_iff (x y : String) :
    strLeB x y = true ↔ strLtB x y = true ∨ x = y := by
  simp [strLeB]

theorem strLeB_trans (x y z : String) (h1 : strLeB x y = true)
    (h2 : strLeB y z = true) : strLeB x z = true := by
  rcases (strLeB_iff x y).mp h1 with h1 | h1
  · rcases (strLeB_iff y z).mp h2 with h2 | h2
    · exact (strLeB_iff x z).mpr (Or.inl (strLtB_trans x y z h1 h2))
    · subst h2
      exact (strLeB_iff x y).mpr (Or.inl h1)
  · subst h1
    exact h2

theorem strLeB_antisymm (x y : String) (h1 : strLeB x y = true)
    (h2 : strLeB y x = true) : x = y := by
  rcases (strLeB_iff x y).mp h1 with h1 | h1
  · rcases (strLeB_iff y x).mp h2 with h2 | h2
    · exact absurd h2 (by simp [strLtB_asymm x y h1])
    · exact h2.symm
  · exact h1

theorem listStrLtB_irrefl (x : List String) : listStrLtB x x = false :=
  lexLt_irrefl strLtB strLtB_irrefl _

theorem listStrLtB_asymm (x y : List String) (h : listStrLtB x y = true) :
    listStrLtB y x = false :=
  lexLt_asymm strLtB strLtB_asymm _ _ h

theorem listStrLtB_trans (x y z : List String) (h1 : listStrLtB x y = true)
    (h2 : listStrLtB y z = true) : listStrLtB x z = true :=
  lexLt_trans strLtB strLtB_irrefl strLtB_asymm strLtB_trans _ _ _ h1 h2

theorem listStrLtB_total (x y : List String) (h : x ≠ y) :
    listStrLtB x y = true ∨ listStrLtB y x = true :=
  lexLt_total strLtB strLtB_total _ _ h

/-! Facts about the tuple order used by `find_longest_match`. -/

theorem pairLe_iff [DecidableEq α] (lt : α → α → Bool) (p q : Nat × α) :
    pairLe lt p q = true ↔
      p.1 < q.1 ∨ (p.1 = q.1 ∧ (lt p.2 q.2 = true ∨ p.2 = q.2)) := by
  simp [pairLe]

theorem pairLe_fst_le [DecidableEq α] (lt : α → α → Bool) (p q : Nat × α)
    (h : pairLe lt p q = true) : p.1 ≤ q.1 := by
  rcases (pairLe_iff lt p q).mp h with h | ⟨h, _⟩ <;> omega

theorem pairLe_total [DecidableEq α] (lt : α → α → Bool)
    (htot : ∀ x y : α, x ≠ y → lt x y = true ∨ lt y x = true) :
    ∀ p q, pairLe lt p q = true ∨ pairLe lt q p = true := by
  intro p q
  rcases Nat.lt_trichotomy p.1 q.1 with h | h | h
  · exact Or.inl ((pairLe_iff lt p q).mpr (Or.inl h))
  · by_cases h2 : p.2 = q.2
    · exact Or.inl ((pairLe_iff lt p q).mpr (Or.inr ⟨h, Or.inr h2⟩))
    · rcases htot p.2 q.2 h2 with h3 | h3
      · exact Or.inl ((pairLe_iff lt p q).mpr (Or.inr ⟨h, Or.inl h3⟩))
      · exact Or.inr ((pairLe_iff lt q p).mpr (Or.inr ⟨h.symm, Or.inl h3⟩))
  · exact Or.inr ((pairLe_iff lt q p).mpr (Or.inl h))

theorem pairLe_trans [DecidableEq α] (lt : α → α → Bool)
    (htr : ∀ x y z : α, lt x y = true → lt y z = true → lt x z = true) :
    ∀ p q r, pairLe lt p q = true → pairLe lt q r = true → pairLe lt p r = true := by
  intro p q r h1 h2
  rcases (pairLe_iff lt p q).mp h1 with h1 | ⟨h1a, h1b⟩
  · rcases (pairLe_iff lt q r).mp h2 with h2 | ⟨h2a, _⟩
    · exact (pairLe_iff lt p r).mpr (Or.inl (by omega))
    · exact (pairLe_iff lt p r).mpr (Or.inl (by omega))
  · rcases (pairLe_iff lt q r).mp h2 with h2 | ⟨h2a, h2b⟩
    · exact (pairLe_iff lt p r).mpr (Or.inl (by omega))
    · refine (pairLe_iff lt p r).mpr (Or.inr ⟨by omega, ?_⟩)
      rcases h1b with h1b | h1b
      · rcases h2b with h2b | h2b
        · exact Or.inl (htr _ _ _ h1b h2b)
        · exact Or.inl (h2b ▸ h1b)
      · rcases h2b with h2b | h2b
        · exact Or.inl (h1b ▸ h2b)
        · exact Or.inr (h1b.trans h2b)

/-! Generic facts: last element of a sorted list is a maximum, and
`pyIndex` bounds. -/

theorem getLastD_mem : ∀ (l : List α) (d : α), l ≠ [] → l.getLastD d ∈ l
  | [], _, h => absurd rfl h
  | a :: t, d, _ => by
      rw [List.getLastD_cons]
      exact List.getLastD_mem_cons t a

theorem getLastD_max_of_pairwise {r : α → α → Prop} :
    ∀ (l : List α) (d : α), List.Pairwise r l →
      ∀ x ∈ l, x = l.getLastD d ∨ r x (l.getLastD d)
  | [], _, _, x, hx => absurd hx (List.not_mem_nil x)
  | [a], _, _, x, hx => by
      simp only [List.mem_singleton] at hx
      subst hx
      exact Or.inl rfl
  | a :: b :: t, d, hp, x, hx => by
      rw [List.getLastD_cons]
      rcases List.mem_cons.mp hx with rfl | hx2
      · right
        exact List.rel_of_pairwise_cons hp (getLastD_mem (b :: t) x (by simp))
      · exact getLastD_max_of_pairwise (b :: t) a hp.of_cons x hx2

theorem pyIndex_le_length [DecidableEq α] : ∀ (l : List α) (x : α), pyIndex l x ≤ l.length
  | [], _ => Nat.le_refl 0
  | a :: t, x => by
      by_cases h : a = x
      · simp [pyIndex, h]
      · simp only [pyIndex, if_neg h, List.length_cons]
        exact Nat.succ_le_succ (pyIndex_le_length t x)

theorem pairLe_refl [DecidableEq α] (lt : α → α → Bool) (p : Nat × α) :
    pairLe lt p p = true :=
  (pairLe_iff lt p p).mpr (Or.inr ⟨rfl, Or.inr rfl⟩)

/-! Relating the matching loop of `get_attr_score` to a filter over the
vocabulary: the index list collects exactly the positions of the matching
entries, so the `found_names` list of `find_longest_match` is the list of
matching entries paired with their Python lengths. -/

theorem axis_matches_f_ge (name : String) :
    ∀ (attr : List String) (i : Nat), ∀ j ∈ axis_matches_f name attr i, i ≤ j
  | [], _, j, hj => absurd hj (List.not_mem_nil j)
  | v :: rest, i, j, hj => by
      simp only [axis_matches_f, List.mem_append] at hj
      rcases hj with hj | hj
      · by_cases hm : matches_token name v = true
        · simp only [if_pos hm, List.mem_singleton] at hj
          omega
        · simp only [Bool.not_eq_true] at hm
          simp [hm] at hj
      · have := axis_matches_f_ge name rest (i + 1) j hj
        omega

theorem axis_matches_g_ge (name : String) :
    ∀ (attr : List (List String)) (i : Nat), ∀ j ∈ axis_matches_g name attr i, i ≤ j
  | [], _, j, hj => absurd hj (List.not_mem_nil j)
  | grp :: rest, i, j, hj => by
      simp only [axis_matches_g, List.mem_append] at hj
      rcases hj with hj | hj
      · rcases List.mem_map.mp hj with ⟨v, _, he⟩
        omega
      · have := axis_matches_g_ge name rest (i + 1) j hj
        omega

theorem axis_matches_f_eq_nil (name : String) :
    ∀ (attr : List String) (i : Nat),
      axis_matches_f name attr i = [] ↔ ∀ v ∈ attr, matches_token name v = false
  | [], i => by simp [axis_matches_f]
  | v :: rest, i => by
      simp only [axis_matches_f, List.append_eq_nil, List.mem_cons]
      constructor
      · rintro ⟨h1, h2⟩ w hw
        rcases hw with rfl | hw
        · by_cases hm : matches_token name w = true
          · simp [hm] at h1
          · simpa using hm
        · exact (axis_matches_f_eq_nil name rest (i + 1)).mp h2 w hw
      · intro h
        refine ⟨by simp [h v (Or.inl rfl)], ?_⟩
        exact (axis_matches_f_eq_nil name rest (i + 1)).mpr (fun w hw => h w (Or.inr hw))

theorem axis_matches_g_eq_nil (name : String) :
    ∀ (attr : List (List String)) (i : Nat),
      axis_matches_g name attr i = [] ↔
        ∀ grp ∈ attr, ∀ v ∈ grp, matches_token name v = false
  | [], i => by simp [axis_matches_g]
  | grp :: rest, i => by
      simp only [axis_matches_g, List.append_eq_nil, List.mem_cons]
      constructor
      · rintro ⟨h1, h2⟩ g hg
        rcases hg with rfl | hg
        · intro v hv
          by_cases hm : matches_token name v = true
          · exact absurd h1 (by
              have : v ∈ g.filter (fun w => matches_token name w) :=
                List.mem_filter.mpr ⟨hv, hm⟩
              intro he
              rw [List.map_eq_nil_iff] at he
              rw [he] at this
              exact List.not_mem_nil v this)
          · simpa using hm
        · exact (axis_matches_g_eq_nil name rest (i + 1)).mp h2 g hg
      · intro h
        refine ⟨?_, ?_⟩
        · have : grp.filter (fun w => matches_token name w) = [] :=
            List.filter_eq_nil_iff.mpr (fun v hv => by simp [h grp (Or.inl rfl) v hv])
          simp [this]
        · exact (axis_matches_g_eq_nil name rest (i + 1)).mpr
            (fun g hg v hv => h g (Or.inr hg) v hv)

theorem found_entries_f_congr :
    ∀ (attr : List String) (i : Nat) (nm nm2 : List Nat),
      (∀ j, i ≤ j → ((j ∈ nm) ↔ (j ∈ nm2))) →
      found_entries_f nm attr i = found_entries_f nm2 attr i
  | [], _, _, _, _ => rfl
  | v :: rest, i, nm, nm2, h => by
      simp only [found_entries_f]
      have hi : (i ∈ nm) ↔ (i ∈ nm2) := h i (Nat.le_refl i)
      have hrest : found_entries_f nm rest (i + 1) = found_entries_f nm2 rest (i + 1) :=
        found_entries_f_congr rest (i + 1) nm nm2 (fun j hj => h j (by omega))
      by_cases hm : i ∈ nm
      · rw [if_pos hm, if_pos (hi.mp hm), hrest]
      · rw [if_neg hm, if_neg (fun h2 => hm (hi.mpr h2)), hrest]

theorem found_entries_g_congr :
    ∀ (attr : List (List String)) (i : Nat) (nm nm2 : List Nat),
      (∀ j, i ≤ j → ((j ∈ nm) ↔ (j ∈ nm2))) →
      found_entries_g nm attr i = found_entries_g nm2 attr i
  | [], _, _, _, _ => rfl
  | grp :: rest, i, nm, nm2, h => by
      simp only [found_entries_g]
      have hi : (i ∈ nm) ↔ (i ∈ nm2) := h i (Nat.le_refl i)
      have hrest : found_entries_g nm rest (i + 1) = found_entries_g nm2 rest (i + 1) :=
        found_entries_g_congr rest (i + 1) nm nm2 (fun j hj => h j (by omega))
      by_cases hm : i ∈ nm
      · rw [if_pos hm, if_pos (hi.mp hm), hrest]
      · rw [if_neg hm, if_neg (fun h2 => hm (hi.mpr h2)), hrest]

theorem found_entries_f_axis (name : String) :
    ∀ (attr : List String) (i : Nat),
      found_entries_f (axis_matches_f name attr i) attr i =
        (attr.filter (fun v => matches_token name v)).map (fun v => (v.length, v))
  | [], _ => rfl
  | v :: rest, i => by
      have hge := axis_matches_f_ge name rest (i + 1)
      simp only [found_entries_f, axis_matches_f]
      have hmem : (i ∈ (if matches_token name v then [i] else []) ++
          axis_matches_f name rest (i + 1)) ↔ matches_token name v = true := by
        simp only [List.mem_append]
        constructor
        · rintro (h | h)
          · by_cases hm : matches_token name v = true
            · exact hm
            · simp only [Bool.not_eq_true] at hm
              simp [hm] at h
          · have := hge i h
            omega
        · intro h
          exact Or.inl (by simp [h])
      have hrest : found_entries_f
          ((if matches_token name v then [i] else []) ++ axis_matches_f name rest (i + 1))
          rest (i + 1) = found_entries_f (axis_matches_f name rest (i + 1)) rest (i + 1) := by
        apply found_entries_f_congr
        intro j hj
        simp only [List.mem_append]
        constructor
        · rintro (h | h)
          · by_cases hm : matches_token name v = true
            · simp only [if_pos hm, List.mem_singleton] at h
              omega
            · simp only [Bool.not_eq_true] at hm
              simp [hm] at h
          · exact h
        · exact fun h => Or.inr h
      by_cases hm : matches_token name v = true
      · rw [if_pos (hmem.mpr hm), hrest, found_entries_f_axis name rest (i + 1)]
        simp [hm]
      · rw [if_neg (fun h => by simp [hmem.mp h] at hm), hrest,
          found_entries_f_axis name rest (i + 1)]
        simp only [Bool.not_eq_true] at hm
        simp [List.filter_cons, hm]

theorem found_entries_g_axis (name : String) :
    ∀ (attr : List (List String)) (i : Nat),
      found_entries_g (axis_matches_g name attr i) attr i =
        (attr.filter (fun grp => grp.any (fun v => matches_token name v))).map
          (fun grp => (grp.length, grp))
  | [], _ => rfl
  | grp :: rest, i => by
      have hge := axis_matches_g_ge name rest (i + 1)
      simp only [found_entries_g, axis_matches_g]
      have hmem : (i ∈ (grp.filter (fun v => matches_token name v)).map (fun _ => i) ++
          axis_matches_g name rest (i + 1)) ↔
          grp.any (fun v => matches_token name v) = true := by
        simp only [List.mem_append]
        constructor
        · rintro (h | h)
          · rcases List.mem_map.mp h with ⟨v, hv, _⟩
            rcases List.mem_filter.mp hv with ⟨hv1, hv2⟩
            exact List.any_eq_true.mpr ⟨v, hv1, hv2⟩
          · have := hge i h
            omega
        · intro h
          rcases List.any_eq_true.mp h with ⟨v, hv1, hv2⟩
          exact Or.inl (List.mem_map.mpr
            ⟨v, List.mem_filter.mpr ⟨hv1, hv2⟩, rfl⟩)
      have hrest : found_entries_g
          ((grp.filter (fun v => matches_token name v)).map (fun _ => i) ++
            axis_matches_g name rest (i + 1))
          rest (i + 1) = found_entries_g (axis_matches_g name rest (i + 1)) rest (i + 1) := by
        apply found_entries_g_congr
        intro j hj
        simp only [List.mem_append]
        constructor
        · rintro (h | h)
          · rcases List.mem_map.mp h with ⟨v, _, he⟩
            omega
          · exact h
        · exact fun h => Or.inr h
      by_cases hm : grp.any (fun v => matches_token name v) = true
      · rw [if_pos (hmem.mpr hm), hrest, found_entries_g_axis name rest (i + 1)]
        simp [hm]
      · rw [if_neg (fun h => hm (hmem.mp h)), hrest, found_entries_g_axis name rest (i + 1)]
        simp only [Bool.not_eq_true] at hm
        simp [List.filter_cons, hm]

/-! Specification of `find_longest_match` on the index list produced by the
matching loop: the result is the position of a matching entry that is
maximal in the Python tuple order `(len(entry), entry)`. -/

theorem find_longest_match_f_spec (name : String) (attr : List String)
    (hne : axis_matches_f name attr 0 ≠ []) :
    ∃ tok, tok ∈ attr ∧ matches_token name tok = true ∧
      find_longest_match_f attr (axis_matches_f name attr 0) = pyIndex attr tok ∧
      ∀ t ∈ attr, matches_token name t = true → t.length ≤ tok.length := by
  have hfound := found_entries_f_axis name attr 0
  set fl := attr.filter (fun v => matches_token name v) with hfl
  have hflne : fl ≠ [] := by
    intro he
    apply hne
    rw [axis_matches_f_eq_nil]
    intro v hv
    by_cases hm : matches_token name v = true
    · exact absurd he (by
        intro h2
        have : v ∈ fl := List.mem_filter.mpr ⟨hv, hm⟩
        rw [h2] at this
        exact List.not_mem_nil v this)
    · simpa using hm
  set S := List.insertionSort (fun p q => pairLeF p q = true)
    (found_entries_f (axis_matches_f name attr 0) attr 0) with hS
  have hSlen : S.length = fl.length := by
    rw [hS, List.length_insertionSort, hfound, List.length_map]
  have hSne : S ≠ [] := by
    intro he
    apply hflne
    have := hSlen
    rw [he] at this
    exact List.eq_nil_of_length_eq_zero this.symm
  have hsorted : List.Pairwise (fun p q => pairLeF p q = true) S := by
    haveI : IsTotal (Nat × String) (fun p q => pairLeF p q = true) :=
      ⟨fun p q => pairLe_total strLtB strLtB_total p q⟩
    haveI : IsTrans (Nat × String) (fun p q => pairLeF p q = true) :=
      ⟨fun p q r => pairLe_trans strLtB strLtB_trans p q r⟩
    exact List.sorted_insertionSort _ _
  set chosen := S.getLastD (0, "") with hchosen
  have hchosenS : chosen ∈ S := getLastD_mem S (0, "") hSne
  have hchosenfound : chosen ∈ found_entries_f (axis_matches_f name attr 0) attr 0 :=
    (List.mem_insertionSort _).mp hchosenS
  rw [hfound] at hchosenfound
  rcases List.mem_map.mp hchosenfound with ⟨v, hvfl, hvc⟩
  rcases List.mem_filter.mp hvfl with ⟨hvattr, hvm⟩
  refine ⟨v, hvattr, hvm, ?_, ?_⟩
  · show find_longest_match_f attr (axis_matches_f name attr 0) = pyIndex attr v
    show pyIndex attr (S.getLastD (0, "")).2 = pyIndex attr v
    rw [← hchosen, ← hvc]
  · intro t ht hm
    have htf : (t.length, t) ∈ found_entries_f (axis_matches_f name attr 0) attr 0 := by
      rw [hfound]
      exact List.mem_map.mpr ⟨t, List.mem_filter.mpr ⟨ht, hm⟩, rfl⟩
    have htS : (t.length, t) ∈ S := (List.mem_insertionSort _).mpr htf
    rcases getLastD_max_of_pairwise S (0, "") hsorted (t.length, t) htS with he | hle
    · rw [← hchosen, ← hvc] at he
      exact Nat.le_of_eq (congrArg Prod.fst he)
    · rw [← hchosen, ← hvc] at hle
      exact pairLe_fst_le strLtB (t.length, t) (v.length, v) hle

theorem find_longest_match_g_spec (name : String) (attr : List (List String))
    (hne : axis_matches_g name attr 0 ≠ []) :
    ∃ grp, grp ∈ attr ∧ grp.any (fun v => matches_token name v) = true ∧
      find_longest_match_g attr (axis_matches_g name attr 0) = pyIndex attr grp ∧
      ∀ h ∈ attr, h.any (fun v => matches_token name v) = true →
        pairLeG (h.length, h) (grp.length, grp) = true := by
  have hfound := found_entries_g_axis name attr 0
  set fl := attr.filter (fun grp => grp.any (fun v => matches_token name v)) with hfl
  have hflne : fl ≠ [] := by
    intro he
    apply hne
    rw [axis_matches_g_eq_nil]
    intro g hg v hv
    by_cases hm : matches_token name v = true
    · exact absurd he (by
        intro h2
        have : g ∈ fl := List.mem_filter.mpr ⟨hg, List.any_eq_true.mpr ⟨v, hv, hm⟩⟩
        rw [h2] at this
        exact List.not_mem_nil g this)
    · simpa using hm
  set S := List.insertionSort (fun p q => pairLeG p q = true)
    (found_entries_g (axis_matches_g name attr 0) attr 0) with hS
  have hSlen : S.length = fl.length := by
    rw [hS, List.length_insertionSort, hfound, List.length_map]
  have hSne : S ≠ [] := by
    intro he
    apply hflne
    have := hSlen
    rw [he] at this
    exact List.eq_nil_of_length_eq_zero this.symm
  have hsorted : List.Pairwise (fun p q => pairLeG p q = true) S := by
    haveI : IsTotal (Nat × List String) (fun p q => pairLeG p q = true) :=
      ⟨fun p q => pairLe_total listStrLtB listStrLtB_total p q⟩
    haveI : IsTrans (Nat × List String) (fun p q => pairLeG p q = true) :=
      ⟨fun p q r => pairLe_trans listStrLtB listStrLtB_trans p q r⟩
    exact List.sorted_insertionSort _ _
  set chosen := S.getLastD (0, []) with hchosen
  have hchosenS : chosen ∈ S := getLastD_mem S (0, []) hSne
  have hchosenfound : chosen ∈ found_entries_g (axis_matches_g name attr 0) attr 0 :=
    (List.mem_insertionSort _).mp hchosenS
  rw [hfound] at hchosenfound
  rcases List.mem_map.mp hchosenfound with ⟨g, hgfl, hgc⟩
  rcases List.mem_filter.mp hgfl with ⟨hgattr, hgm⟩
  refine ⟨g, hgattr, hgm, ?_, ?_⟩
  · show find_longest_match_g attr (axis_matches_g name attr 0) = pyIndex attr g
    show pyIndex attr (S.getLastD (0, [])).2 = pyIndex attr g
    rw [← hchosen, ← hgc]
  · intro h hh hm
    have htf : (h.length, h) ∈ found_entries_g (axis_matches_g name attr 0) attr 0 := by
      rw [hfound]
      exact List.mem_map.mpr ⟨h, List.mem_filter.mpr ⟨hh, hm⟩, rfl⟩
    have htS : (h.length, h) ∈ S := (List.mem_insertionSort _).mpr htf
    rcases getLastD_max_of_pairwise S (0, []) hsorted (h.length, h) htS with he | hle
    · rw [← hchosen, ← hgc] at he
      rw [he]
      exact pairLe_refl listStrLtB (g.length, g)
    · rw [← hchosen, ← hgc] at hle
      exact hle

/-- Any attribute score is bounded by the vocabulary length (both the
fallback branch and the longest-match branch return a `pyIndex`). -/
theorem get_attr_score_g_le (name : String) (attr : List (List String))
    (fb : List String) : get_attr_score_g name attr fb ≤ attr.length := by
  show (if axis_matches_g name attr 0 = [] then pyIndex attr fb
      else find_longest_match_g attr (axis_matches_g name attr 0)) ≤ attr.length
  split
  · exact pyIndex_le_length attr fb
  · exact pyIndex_le_length attr _

theorem get_attr_score_f_le (name : String) (attr : List String)
    (fb : String) : get_attr_score_f name attr fb ≤ attr.length := by
  show (if axis_matches_f name attr 0 = [] then pyIndex attr fb
      else find_longest_match_f attr (axis_matches_f name attr 0)) ≤ attr.length
  split
  · exact pyIndex_le_length attr fb
  · exact pyIndex_le_length attr _

/-! Permutation and sortedness of `sort_ps_names`. -/

theorem sort_ps_names_eq (l : List String) (a : Bool) :
    sort_ps_names l a =
      ((List.insertionSort (fun p q : Nat × List String => p.1 ≤ q.1)
        ((build_matches l a).map
          (fun p => (p.1, List.insertionSort (fun x y => strLeB x y = true) p.2)))).map
        Prod.snd).flatten := rfl

theorem setdefault_append_perm (k : Nat) (v : String) :
    ∀ m : List (Nat × List String),
      List.Perm (((setdefault_append m k v).map Prod.snd).flatten)
        (v :: (m.map Prod.snd).flatten)
  | [] => by
      simp only [setdefault_append, List.map_cons, List.map_nil, List.flatten_cons,
        List.flatten_nil, List.append_nil]
      exact List.Perm.refl _
  | (k2, g) :: rest => by
      by_cases h : k2 = k
      · simp only [setdefault_append, if_pos h, List.map_cons, List.flatten_cons]
        have he : (g ++ [v]) ++ (List.map Prod.snd rest).flatten
            = g ++ v :: (List.map Prod.snd rest).flatten := by simp
        rw [he]
        exact List.perm_middle
      · simp only [setdefault_append, if_neg h, List.map_cons, List.flatten_cons]
        have h1 := setdefault_append_perm k v rest
        exact (List.Perm.append_left g h1).trans List.perm_middle

theorem build_matches_perm_aux (a : Bool) :
    ∀ (l : List String) (m : List (Nat × List String)),
      List.Perm
        (((l.foldl (fun m n => setdefault_append m (scoreInt n a) n) m).map Prod.snd).flatten)
        (l ++ (m.map Prod.snd).flatten)
  | [], m => by
      simp only [List.foldl_nil, List.nil_append]
      exact List.Perm.refl _
  | x :: xs, m => by
      simp only [List.foldl_cons, List.cons_append]
      have h1 := build_matches_perm_aux a xs (setdefault_append m (scoreInt x a) x)
      have h2 : List.Perm
          (xs ++ (((setdefault_append m (scoreInt x a) x).map Prod.snd).flatten))
          (xs ++ (x :: (m.map Prod.snd).flatten)) :=
        List.Perm.append_left xs (setdefault_append_perm _ x m)
      exact (h1.trans h2).trans List.perm_middle

theorem vals_groupsort_perm :
    ∀ ms : List (Nat × List String),
      List.Perm
        (((ms.map (fun p =>
            (p.1, List.insertionSort (fun x y => strLeB x y = true) p.2))).map Prod.snd).flatten)
        ((ms.map Prod.snd).flatten)
  | [] => List.Perm.refl _
  | (k, g) :: rest => by
      simp only [List.map_cons, List.flatten_cons]
      exact List.Perm.append (List.perm_insertionSort _ g) (vals_groupsort_perm rest)

theorem sort_ps_names_perm (l : List String) (a : Bool) :
    List.Perm (sort_ps_names l a) l := by
  rw [sort_ps_names_eq]
  have h1 : List.Perm
      (List.insertionSort (fun p q : Nat × List String => p.1 ≤ q.1)
        ((build_matches l a).map
          (fun p => (p.1, List.insertionSort (fun x y => strLeB x y = true) p.2))))
      ((build_matches l a).map
        (fun p => (p.1, List.insertionSort (fun x y => strLeB x y = true) p.2))) :=
    List.perm_insertionSort _ _
  have h2 := (h1.map Prod.snd).flatten
  have h3 := vals_groupsort_perm (build_matches l a)
  have h4 : List.Perm (((build_matches l a).map Prod.snd).flatten) l := by
    have := build_matches_perm_aux a l []
    simpa [build_matches] using this
  exact ((h2.trans h3).trans h4)

/-! Score and key invariants of the grouping stage. -/

theorem setdefault_scores (a : Bool) (k : Nat) (v : String) (hv : scoreInt v a = k) :
    ∀ m : List (Nat × List String),
      (∀ p ∈ m, ∀ n ∈ p.2, scoreInt n a = p.1) →
      ∀ p ∈ setdefault_append m k v, ∀ n ∈ p.2, scoreInt n a = p.1
  | [], _, p, hp, n, hn => by
      simp only [setdefault_append, List.mem_singleton] at hp
      subst hp
      simp only [List.mem_singleton] at hn
      subst hn
      exact hv
  | (k2, g) :: rest, hm, p, hp, n, hn => by
      by_cases h : k2 = k
      · simp only [setdefault_append, if_pos h, List.mem_cons] at hp
        rcases hp with rfl | hp
        · simp only [List.mem_append, List.mem_singleton] at hn
          rcases hn with hn | rfl
          · exact hm (k2, g) (List.mem_cons_self _ _) n hn
          · rw [hv, h]
        · exact hm p (List.mem_cons_of_mem _ hp) n hn
      · simp only [setdefault_append, if_neg h, List.mem_cons] at hp
        rcases hp with rfl | hp
        · exact hm (k2, g) (List.mem_cons_self _ _) n hn
        · exact setdefault_scores a k v hv rest
            (fun q hq => hm q (List.mem_cons_of_mem _ hq)) p hp n hn

theorem build_matches_scores_aux (a : Bool) :
    ∀ (l : List String) (m : List (Nat × List String)),
      (∀ p ∈ m, ∀ n ∈ p.2, scoreInt n a = p.1) →
      ∀ p ∈ l.foldl (fun m n => setdefault_append m (scoreInt n a) n) m,
        ∀ n ∈ p.2, scoreInt n a = p.1
  | [], _, hm => hm
  | x :: xs, m, hm => by
      simp only [List.foldl_cons]
      exact build_matches_scores_aux a xs _ (setdefault_scores a _ x rfl m hm)

theorem build_matches_scores (a : Bool) (l : List String) :
    ∀ p ∈ build_matches l a, ∀ n ∈ p.2, scoreInt n a = p.1 :=
  build_matches_scores_aux a l [] (by intro p hp; exact absurd hp (List.not_mem_nil p))

theorem setdefault_keys_subset (k : Nat) (v : String) :
    ∀ (m : List (Nat × List String)) (j : Nat),
      j ∈ (setdefault_append m k v).map Prod.fst → j ∈ m.map Prod.fst ∨ j = k
  | [], j, hj => by
      simp only [setdefault_append, List.map_cons, List.map_nil, List.mem_singleton] at hj
      exact Or.inr hj
  | (k2, g) :: rest, j, hj => by
      by_cases h : k2 = k
      · simp only [setdefault_append, if_pos h, List.map_cons, List.mem_cons] at hj
        rcases hj with rfl | hj
        · exact Or.inl (by simp)
        · exact Or.inl (by simp [hj])
      · simp only [setdefault_append, if_neg h, List.map_cons, List.mem_cons] at hj
        rcases hj with rfl | hj
        · exact Or.inl (by simp)
        · rcases setdefault_keys_subset k v rest j hj with h2 | h2
          · exact Or.inl (by simp [h2])
          · exact Or.inr h2

theorem setdefault_keys_nodup (k : Nat) (v : String) :
    ∀ m : List (Nat × List String),
      (m.map Prod.fst).Nodup → ((setdefault_append m k v).map Prod.fst).Nodup
  | [], _ => by simp [setdefault_append]
  | (k2, g) :: rest, hn => by
      simp only [List.map_cons, List.nodup_cons] at hn
      by_cases h : k2 = k
      · simp only [setdefault_append, if_pos h, List.map_cons, List.nodup_cons]
        exact hn
      · simp only [setdefault_append, if_neg h, List.map_cons, List.nodup_cons]
        refine ⟨?_, setdefault_keys_nodup k v rest hn.2⟩
        intro h2
        rcases setdefault_keys_subset k v rest k2 h2 with h3 | h3
        · exact hn.1 h3
        · exact h h3

theorem build_matches_keys_nodup_aux :
    ∀ (a : Bool) (l : List String) (m : List (Nat × List String)),
      (m.map Prod.fst).Nodup →
      ((l.foldl (fun m n => setdefault_append m (scoreInt n a) n) m).map Prod.fst).Nodup
  | _, [], _, hm => hm
  | a, x :: xs, m, hm => by
      simp only [List.foldl_cons]
      exact build_matches_keys_nodup_aux a xs _ (setdefault_keys_nodup _ x m hm)

theorem build_matches_keys_nodup (a : Bool) (l : List String) :
    ((build_matches l a).map Prod.fst).Nodup :=
  build_matches_keys_nodup_aux a l [] (by simp)

theorem pairwise_lt_of_le_nodup :
    ∀ m : List (Nat × List String),
      List.Pairwise (fun p q : Nat × List String => p.1 ≤ q.1) m →
      (m.map Prod.fst).Nodup →
      List.Pairwise (fun p q : Nat × List String => p.1 < q.1) m
  | [], _, _ => List.Pairwise.nil
  | p :: rest, hp, hn => by
      rw [List.pairwise_cons] at hp ⊢
      simp only [List.map_cons, List.nodup_cons] at hn
      refine ⟨?_, pairwise_lt_of_le_nodup rest hp.2 hn.2⟩
      intro q hq
      have hle := hp.1 q hq
      have hne : p.1 ≠ q.1 := by
        intro e
        apply hn.1
        rw [e]
        exact List.mem_map.mpr ⟨q, hq, rfl⟩
      omega

theorem sort_ps_names_pairwise (l : List String) (a : Bool) :
    List.Pairwise (keyLe a) (sort_ps_names l a) := by
  rw [sort_ps_names_eq]
  set ms := build_matches l a with hms
  set ms2 := ms.map (fun p => (p.1, List.insertionSort (fun x y => strLeB x y = true) p.2))
    with hms2
  set ms3 := List.insertionSort (fun p q : Nat × List String => p.1 ≤ q.1) ms2 with hms3
  have hperm3 : List.Perm ms3 ms2 := List.perm_insertionSort _ _
  have hsc : ∀ p ∈ ms3, ∀ n ∈ p.2, scoreInt n a = p.1 := by
    intro p hp n hn
    have hp2 : p ∈ ms2 := (List.mem_insertionSort _).mp hp
    rcases List.mem_map.mp hp2 with ⟨q, hq, rfl⟩
    exact build_matches_scores a l q hq n ((List.mem_insertionSort _).mp hn)
  have hgr : ∀ p ∈ ms3, List.Pairwise (fun x y => strLeB x y = true) p.2 := by
    intro p hp
    have hp2 : p ∈ ms2 := (List.mem_insertionSort _).mp hp
    rcases List.mem_map.mp hp2 with ⟨q, hq, rfl⟩
    haveI : IsTotal String (fun x y => strLeB x y = true) := ⟨strLeB_total⟩
    haveI : IsTrans String (fun x y => strLeB x y = true) := ⟨strLeB_trans⟩
    exact List.sorted_insertionSort _ _
  have hle3 : List.Pairwise (fun p q : Nat × List String => p.1 ≤ q.1) ms3 := by
    haveI : IsTotal (Nat × List String) (fun p q => p.1 ≤ q.1) :=
      ⟨fun p q => Nat.le_total p.1 q.1⟩
    haveI : IsTrans (Nat × List String) (fun p q => p.1 ≤ q.1) :=
      ⟨fun p q r h1 h2 => Nat.le_trans h1 h2⟩
    exact List.sorted_insertionSort _ _
  have hkeyeq : ms2.map Prod.fst = ms.map Prod.fst := by
    rw [hms2, List.map_map]
    rfl
  have hnodup3 : (ms3.map Prod.fst).Nodup := by
    have h1 := (hperm3.map Prod.fst).nodup_iff
    rw [hkeyeq] at h1
    exact h1.mpr (build_matches_keys_nodup a l)
  have hkeys : List.Pairwise (fun p q : Nat × List String => p.1 < q.1) ms3 :=
    pairwise_lt_of_le_nodup ms3 hle3 hnodup3
  rw [List.pairwise_flatten]
  constructor
  · intro g hg
    rcases List.mem_map.mp hg with ⟨p, hp, rfl⟩
    exact List.Pairwise.imp_of_mem
      (fun {x y} hx hy hxy =>
        Or.inr ⟨by rw [hsc p hp x hx, hsc p hp y hy], hxy⟩)
      (hgr p hp)
  · rw [List.pairwise_map]
    refine List.Pairwise.imp_of_mem ?_ hkeys
    intro p q hp hq hpq
    intro x hx y hy
    exact Or.inl (by rw [hsc p hp x hx, hsc q hq y hy]; exact hpq)

theorem keyLe_antisymm (a : Bool) (x y : String)
    (h1 : keyLe a x y) (h2 : keyLe a y x) : x = y := by
  rcases h1 with h1 | ⟨h1a, h1b⟩
  · rcases h2 with h2 | ⟨h2a, _⟩ <;> omega
  · rcases h2 with h2 | ⟨h2a, h2b⟩
    · omega
    · exact strLeB_antisymm x y h1b h2b

/-! Facts about `test_outlier` and the fallback branches, used for the
sentinel rule. -/

theorem test_outlier_iff (name : String) :
    test_outlier name = true ↔ ∀ v ∈ all_attrs, matches_token name v = false := by
  simp [test_outlier, List.any_eq_false]

theorem get_attr_score_g_empty (name : String) (attr : List (List String))
    (fb : List String) (h : axis_matches_g name attr 0 = []) :
    get_attr_score_g name attr fb = pyIndex attr fb := by
  show (if axis_matches_g name attr 0 = [] then pyIndex attr fb
      else find_longest_match_g attr (axis_matches_g name attr 0)) = pyIndex attr fb
  rw [if_pos h]

theorem get_attr_score_f_empty (name : String) (attr : List String)
    (fb : String) (h : axis_matches_f name attr 0 = []) :
    get_attr_score_f name attr fb = pyIndex attr fb := by
  show (if axis_matches_f name attr 0 = [] then pyIndex attr fb
      else find_longest_match_f attr (axis_matches_f name attr 0)) = pyIndex attr fb
  rw [if_pos h]

theorem outlier_axes_empty (name : String) (h : test_outlier name = true) :
    axis_matches_g name opsz_names 0 = [] ∧ axis_matches_g name width_names 0 = [] ∧
    axis_matches_f name weight_names 0 = [] ∧ get_italic_score name = 0 := by
  have hall := (test_outlier_iff name).mp h
  refine ⟨?_, ?_, ?_, ?_⟩
  · rw [axis_matches_g_eq_nil]
    intro grp hg v hv
    refine hall v ?_
    simp only [all_attrs, List.mem_append]
    exact Or.inl (Or.inl (Or.inl (List.mem_flatten.mpr ⟨grp, hg, hv⟩)))
  · rw [axis_matches_g_eq_nil]
    intro grp hg v hv
    refine hall v ?_
    simp only [all_attrs, List.mem_append]
    exact Or.inl (Or.inl (Or.inr (List.mem_flatten.mpr ⟨grp, hg, hv⟩)))
  · rw [axis_matches_f_eq_nil]
    intro v hv
    refine hall v ?_
    simp only [all_attrs, List.mem_append]
    exact Or.inl (Or.inr hv)
  · have h1 := hall "It" (by decide)
    unfold matches_token at h1
    unfold get_italic_score
    have h2 : lowerL "it".toList = lowerL "It".toList := by decide
    rw [h2, h1]
    rfl

/-! Substring monotonicity used for the italic token set. -/

theorem startsWithCL_trans :
    ∀ (t u s : List Char), startsWithCL t u = true → startsWithCL u s = true →
      startsWithCL t s = true
  | [], _, _, _, _ => rfl
  | _ :: _, [], _, h1, _ => by simp [startsWithCL] at h1
  | _ :: _, _ :: _, [], _, h2 => by simp [startsWithCL] at h2
  | c :: t, d :: u, e :: s, h1, h2 => by
      simp only [startsWithCL] at h1 h2 ⊢
      by_cases hcd : c = d
      · subst hcd
        rw [if_pos rfl] at h1
        by_cases hde : c = e
        · subst hde
          rw [if_pos rfl] at h2 ⊢
          exact startsWithCL_trans t u s h1 h2
        · rw [if_neg hde] at h2
          exact absurd h2 (by simp)
      · rw [if_neg hcd] at h1
        exact absurd h1 (by simp)

theorem containsSub_mono (t u : List Char) (hpre : startsWithCL t u = true) :
    ∀ s, containsSub u s = true → containsSub t s = true
  | [], h => by
      show startsWithCL t [] = true
      exact startsWithCL_trans t u [] hpre h
  | c :: rest, h => by
      simp only [containsSub, Bool.or_eq_true] at h ⊢
      rcases h with h1 | h1
      · exact Or.inl (startsWithCL_trans t u (c :: rest) hpre h1)
      · exact Or.inr (containsSub_mono t u hpre rest h1)

/-! Characterization of the trailing-index regular expression as the
whole trailing digit run (when the name is not all digits). -/

theorem takeWhile_append_all (p : Char → Bool) :
    ∀ (l m : List Char), l.all p = true → (l ++ m).takeWhile p = l ++ m.takeWhile p
  | [], _, _ => rfl
  | c :: l, m, h => by
      simp only [List.all_cons, Bool.and_eq_true] at h
      simp only [List.cons_append, List.takeWhile_cons, h.1, if_pos]
      rw [takeWhile_append_all p l m h.2]

theorem takeWhile_append_not_all (p : Char → Bool) :
    ∀ (l m : List Char), ¬ (l.all p = true) → (l ++ m).takeWhile p = l.takeWhile p
  | [], _, h => absurd rfl h
  | c :: l, m, h => by
      by_cases hc : p c = true
      · have hl : ¬ (l.all p = true) := fun h2 => h (by simp [List.all_cons, hc, h2])
        simp only [List.cons_append, List.takeWhile_cons, hc, if_pos]
        rw [takeWhile_append_not_all p l m hl]
      · simp only [List.cons_append, List.takeWhile_cons, hc]
        rw [if_neg (by simp [hc]), if_neg (by simp [hc])]

theorem regex_index_group_spec :
    ∀ s : List Char, (∃ c ∈ s, c.isDigit = false) →
      (match regex_index_group s with
       | some ds => digitsVal ds
       | none => 0) =
      digitsVal ((s.reverse.takeWhile (fun c => c.isDigit)).reverse)
  | [], h => by
      rcases h with ⟨c, hc, _⟩
      exact absurd hc (List.not_mem_nil c)
  | c :: rest, h => by
      by_cases hA : rest ≠ [] ∧ rest.all (fun c => c.isDigit) = true
      · have hG : regex_index_group (c :: rest) = some rest := by
          unfold regex_index_group
          rw [if_pos hA]
        rw [hG]
        have hc : c.isDigit = false := by
          rcases h with ⟨d, hd, hdf⟩
          rcases List.mem_cons.mp hd with rfl | hd2
          · exact hdf
          · exact absurd (List.all_eq_true.mp hA.2 d hd2) (by simp [hdf])
        have hrev : (c :: rest).reverse = rest.reverse ++ [c] := by simp
        rw [hrev, takeWhile_append_all _ _ _ (by rw [List.all_reverse]; exact hA.2)]
        have : List.takeWhile (fun c => c.isDigit) [c] = [] := by
          simp [List.takeWhile_cons, hc]
        rw [this]
        simp
      · have hG : regex_index_group (c :: rest) = regex_index_group rest := by
          rw [show regex_index_group (c :: rest) =
              if rest ≠ [] ∧ rest.all (fun c => c.isDigit) = true then some rest
              else regex_index_group rest from rfl, if_neg hA]
        rw [hG]
        by_cases hrest : rest = []
        · subst hrest
          have hc : c.isDigit = false := by
            rcases h with ⟨d, hd, hdf⟩
            rcases List.mem_cons.mp hd with rfl | hd2
            · exact hdf
            · exact absurd hd2 (List.not_mem_nil d)
          show (0 : Nat) = digitsVal (([c].reverse.takeWhile (fun c => c.isDigit)).reverse)
          simp [List.takeWhile_cons, hc, digitsVal]
        · have hnall : ¬ (rest.all (fun c => c.isDigit) = true) := by
            intro h2
            exact hA ⟨hrest, h2⟩
          have hex : ∃ d ∈ rest, d.isDigit = false := by
            have := List.all_eq_false.mp (by
              cases hh : rest.all (fun c => c.isDigit)
              · rfl
              · exact absurd hh hnall)
            rcases this with ⟨d, hd, hdf⟩
            exact ⟨d, hd, by simpa using hdf⟩
          rw [regex_index_group_spec rest hex]
          have hrev : (c :: rest).reverse = rest.reverse ++ [c] := by simp
          rw [hrev, takeWhile_append_not_all _ _ _ (by rw [List.all_reverse]; exact hnall)]

theorem get_index_score_eq_run (name : String)
    (h : ∃ c ∈ name.toList, c.isDigit = false) :
    get_index_score name = digitsVal (spec_trailing_run name) := by
  unfold get_index_score spec_trailing_run
  exact regex_index_group_spec name.toList h

/-! Hash arithmetic: the italic digit is the last character of the style
hash, so with equal leading components the Roman key is smaller. -/

theorem digitsVal_append_digit (xs : List Char) (c : Char) :
    digitsVal (xs ++ [c]) = 10 * digitsVal xs + (c.toNat - 48) := by
  unfold digitsVal
  rw [List.foldl_append]
  rfl

theorem get_score_of_tuple (name : String) (a : Bool) (o w wt ix it : Nat)
    (h : score_tuple name a = (o, w, wt, ix, it)) :
    get_score name a = make_hash o w wt ix it := by
  unfold get_score
  rw [h]

theorem scoreInt_lt_of_tuples (x y : String) (o w wt ix : Nat)
    (hx : score_tuple x true = (o, w, wt, ix, 0))
    (hy : score_tuple y true = (o, w, wt, ix, 1)) :
    scoreInt x true < scoreInt y true := by
  unfold scoreInt
  rw [get_score_of_tuple x true o w wt ix 0 hx, get_score_of_tuple y true o w wt ix 1 hy]
  unfold make_hash
  rw [show padNum 0 1 = ['0'] by decide, show padNum 1 1 = ['1'] by decide]
  rw [digitsVal_append_digit, digitsVal_append_digit]
  have h0 : ('0'.toNat - 48) = 0 := by decide
  have h1 : ('1'.toNat - 48) = 1 := by decide
  omega

theorem sort_pair_of_lt (x y : String) (a : Bool)
    (h : scoreInt x a < scoreInt y a) : sort_ps_names [x, y] a = [x, y] := by
  rw [sort_ps_names_eq]
  unfold build_matches
  simp only [List.foldl_cons, List.foldl_nil]
  set kx := scoreInt x a with hkx
  set ky := scoreInt y a with hky
  have hne : kx ≠ ky := by omega
  rw [show setdefault_append ([] : List (Nat × List String)) kx x = [(kx, [x])] from rfl]
  rw [show setdefault_append [(kx, [x])] ky y =
      if kx = ky then [(kx, [x] ++ [y])] else [(kx, [x]), (ky, [y])] from rfl]
  rw [if_neg hne]
  simp only [List.map_cons, List.map_nil, List.insertionSort, List.orderedInsert]
  rw [if_pos (Nat.le_of_lt h)]
  rfl

/-! Claim theorems. -/

/-- C1 counterexample: on the optical-size axis the name "Captposter"
matches index 1 (caption group, via the 4-character token "capt") and
index 10 (via the 6-character token "poster"), so under the claimed
longest-matched-token rule the score would be 10; the code resolves to 1,
preferring the entry with more synonyms. -/
theorem opsz_score_not_longest_token :
    matches_token "Captposter" "capt" = true ∧
    matches_token "Captposter" "poster" = true ∧
    String.length "capt" = 4 ∧ String.length "poster" = 6 ∧
    axis_matches_g "Captposter" opsz_names 0 = [1, 10] ∧
    pyIndex opsz_names ["poster"] = 10 ∧
    get_attr_score_g "Captposter" opsz_names ["normal"] = 1 := by decide

/-- C1 amended: on the flat weight axis the longest-match rule does hold:
whenever some weight token matches, the axis score is the position of a
matched token of maximal length.  On the synonym-group axes (optical size,
width) the code instead prefers the entry that is maximal in the Python
order on `(number of synonyms, entry)`, which can differ from the longest
matched token, as the counterexample shows. -/
theorem weight_score_longest_token (name : String)
    (hne : axis_matches_f name weight_names 0 ≠ []) :
    ∃ tok, tok ∈ weight_names ∧ matches_token name tok = true ∧
      get_attr_score_f name weight_names "regular" = pyIndex weight_names tok ∧
      ∀ t ∈ weight_names, matches_token name t = true → t.length ≤ tok.length := by
  rcases find_longest_match_f_spec name weight_names hne with ⟨tok, h1, h2, h3, h4⟩
  refine ⟨tok, h1, h2, ?_, h4⟩
  rw [← h3]
  show (if axis_matches_f name weight_names 0 = [] then pyIndex weight_names "regular"
      else find_longest_match_f weight_names (axis_matches_f name weight_names 0)) = _
  rw [if_neg hne]

/-- Witness for the amended C1 at the name "SemiBold" (both "semibold" and
"bold" match; the longer token wins). -/
theorem weight_score_longest_token_witness :
    axis_matches_f "SemiBold" weight_names 0 ≠ [] ∧
    (∃ tok, tok ∈ weight_names ∧ matches_token "SemiBold" tok = true ∧
      get_attr_score_f "SemiBold" weight_names "regular" = pyIndex weight_names tok ∧
      ∀ t ∈ weight_names, matches_token "SemiBold" t = true →
        t.length ≤ tok.length) :=
  ⟨by decide, weight_score_longest_token "SemiBold" (by decide)⟩

/-- C2: the three axis components of the score tuple are forced to the
sentinel 999 exactly when no token of any axis vocabulary matched (all
three axes fell back) and no optical/width/weight/italic token occurs in
the name at all; `sortNames` puts the outlier "Acumin-Whatever" after
"Acumin-Regular", and the bare name "Regular" is not an outlier. -/
theorem outlier_sentinel_iff :
    (∀ (name : String) (alt : Bool),
      ((score_tuple name alt).1 = 999 ∧ (score_tuple name alt).2.1 = 999 ∧
        (score_tuple name alt).2.2.1 = 999) ↔
      ((axis_matches_g name opsz_names 0 = [] ∧ axis_matches_g name width_names 0 = [] ∧
        axis_matches_f name weight_names 0 = []) ∧ test_outlier name = true)) ∧
    sort_ps_names ["Acumin-Whatever", "Acumin-Regular"] false =
      ["Acumin-Regular", "Acumin-Whatever"] ∧
    test_outlier "Regular" = false ∧ (score_tuple "Regular" false).2.2.1 = 7 := by
  refine ⟨?_, by decide, by decide, by decide⟩
  intro name alt
  constructor
  · rintro ⟨h1, -, -⟩
    by_cases hc : ((get_attr_score_g name opsz_names ["normal"],
        get_attr_score_g name width_names ["normal"],
        weight_adj name alt) = DEFAULT_SCORE ∧ test_outlier name = true)
    · have he := outlier_axes_empty name hc.2
      exact ⟨⟨he.1, he.2.1, he.2.2.1⟩, hc.2⟩
    · exfalso
      have ht : score_tuple name alt =
          (get_attr_score_g name opsz_names ["normal"],
           get_attr_score_g name width_names ["normal"],
           weight_adj name alt, get_index_score name, get_italic_score name) := by
        unfold score_tuple
        rw [if_neg hc]
      rw [ht] at h1
      have h1b : get_attr_score_g name opsz_names ["normal"] = 999 := h1
      have hb := get_attr_score_g_le name opsz_names ["normal"]
      have hlen : opsz_names.length = 11 := by decide
      omega
  · rintro ⟨⟨e1, e2, e3⟩, ho⟩
    have hital : get_italic_score name = 0 := (outlier_axes_empty name ho).2.2.2
    have hposw : get_attr_score_f name weight_names "regular" =
        pyIndex weight_names "regular" :=
      get_attr_score_f_empty name weight_names "regular" e3
    have hwadj : weight_adj name alt = pyIndex weight_names "regular" := by
      unfold weight_adj
      rw [if_neg (by simp [hital]), hposw]
    have hcond : (get_attr_score_g name opsz_names ["normal"],
        get_attr_score_g name width_names ["normal"],
        weight_adj name alt) = DEFAULT_SCORE ∧ test_outlier name = true := by
      refine ⟨?_, ho⟩
      rw [get_attr_score_g_empty name opsz_names ["normal"] e1,
        get_attr_score_g_empty name width_names ["normal"] e2, hwadj]
      rfl
    have ht : score_tuple name alt =
        (999, 999, 999, get_index_score name, get_italic_score name) := by
      unfold score_tuple
      rw [if_pos hcond]
    rw [ht]
    exact ⟨rfl, rfl, rfl⟩

/-- C3 counterexample: in "Lithos" the letters "it" occur only inside an
unrelated word, yet the italic flag is set. -/
theorem italic_flag_substring_cex :
    get_italic_score "Lithos" = 1 ∧ get_italic_score "Lithos" ≠ 0 := by decide

/-- C3 amended: the italic flag is 1 exactly when one of the tokens
italic, ital, it occurs case-insensitively as a plain substring anywhere
in the name (no discrete-unit requirement; the two longer tokens are
subsumed by "it"). -/
theorem italic_flag_iff (name : String) :
    get_italic_score name = 1 ↔
      (matches_token name "italic" = true ∨ matches_token name "ital" = true ∨
        matches_token name "it" = true) := by
  constructor
  · intro h
    right; right
    unfold get_italic_score at h
    by_cases hc : containsSub (lowerL "it".toList) (lowerL name.toList) = true
    · exact hc
    · rw [if_neg hc] at h
      exact absurd h (by simp)
  · rintro (h | h | h)
    · unfold matches_token at h
      unfold get_italic_score
      rw [if_pos (containsSub_mono (lowerL "it".toList) (lowerL "italic".toList)
        (by decide) _ h)]
    · unfold matches_token at h
      unfold get_italic_score
      rw [if_pos (containsSub_mono (lowerL "it".toList) (lowerL "ital".toList)
        (by decide) _ h)]
    · unfold matches_token at h
      unfold get_italic_score
      rw [if_pos h]

/-- C4 counterexample: for the all-digit name "123" the regular expression
`.+?(\d+?)$` must spend at least one character on the prefix, so the index
is 23, not the value 123 of the entire trailing digit run. -/
theorem index_score_all_digits_cex :
    get_index_score "123" = 23 ∧ get_index_score "123" ≠ 123 ∧
    spec_trailing_run "123" = ['1', '2', '3'] ∧
    digitsVal ['1', '2', '3'] = 123 := by decide

/-- C4 amended: for every name containing at least one non-digit
character, the index component is the integer value of the entire trailing
digit run (0 when the name does not end in a digit); the numbered-
duplicates scenario sorts as claimed.  (For all-digit names the regex
drops the first character, as the counterexample shows.) -/
theorem index_score_trailing_run :
    (∀ name : String, (∃ c ∈ name.toList, c.isDigit = false) →
      get_index_score name = digitsVal (spec_trailing_run name)) ∧
    sort_ps_names ["Font-Regular1", "Font-Regular2", "Font-Regular"] false =
      ["Font-Regular", "Font-Regular1", "Font-Regular2"] :=
  ⟨fun name h => get_index_score_eq_run name h, by decide⟩

/-- Witness for the amended C4 at a concrete name with a digit suffix. -/
theorem index_score_trailing_run_witness :
    (∃ c ∈ "Font-Regular12".toList, c.isDigit = false) ∧
    get_index_score "Font-Regular12" =
      digitsVal (spec_trailing_run "Font-Regular12") :=
  ⟨by decide, index_score_trailing_run.1 "Font-Regular12" (by decide)⟩

/-- C5 counterexample: with alternate italics, "ZFont-Bold" and
"AFont-BoldItalic" agree on the optical, width, weight and index
components, and lexicographically the italic name comes first; yet the
output puts the Roman first, because the italic flag is the last digit of
the sort key and does reorder the pair. -/
theorem alternate_italics_not_lexicographic_cex :
    score_tuple "ZFont-Bold" true = (6, 4, 10, 0, 0) ∧
    score_tuple "AFont-BoldItalic" true = (6, 4, 10, 0, 1) ∧
    strLeB "AFont-BoldItalic" "ZFont-Bold" = true ∧
    sort_ps_names ["AFont-BoldItalic", "ZFont-Bold"] true =
      ["ZFont-Bold", "AFont-BoldItalic"] := by decide

/-- C5 amended: with alternate italics, two names that tie on the optical,
width, weight and index components but differ on the italic flag are
ordered Roman first (the italic flag is the least significant digit of the
integer sort key), regardless of the lexicographic order of the names;
lexicographic order only breaks ties among names with identical keys. -/
theorem alternate_italics_roman_first (x y : String) (o w wt ix : Nat)
    (hx : score_tuple x true = (o, w, wt, ix, 0))
    (hy : score_tuple y true = (o, w, wt, ix, 1)) :
    sort_ps_names [x, y] true = [x, y] :=
  sort_pair_of_lt x y true (scoreInt_lt_of_tuples x y o w wt ix hx hy)

/-- Witness for the amended C5: the Roman/italic pair of the
counterexample, listed Roman first. -/
theorem alternate_italics_roman_first_witness :
    score_tuple "ZFont-Bold" true = (6, 4, 10, 0, 0) ∧
    score_tuple "AFont-BoldItalic" true = (6, 4, 10, 0, 1) ∧
    sort_ps_names ["ZFont-Bold", "AFont-BoldItalic"] true =
      ["ZFont-Bold", "AFont-BoldItalic"] :=
  ⟨by decide, by decide,
    alternate_italics_roman_first "ZFont-Bold" "AFont-BoldItalic" 6 4 10 0
      (by decide) (by decide)⟩

/-- C6 counterexample: the first weight vocabulary entry is "hair", not
"hairline"; in "HairlineBlack" the claimed token "hairline" (8 characters)
is the longest matching token of the claimed vocabulary, so the claimed
rule gives index 0, but the code scores 13 ("black", 5 characters, beats
the 4-character entry "hair"). -/
theorem weight_vocab_hair_cex :
    weight_names.head? = some "hair" ∧ "hair" ≠ "hairline" ∧
    matches_token "HairlineBlack" "hairline" = true ∧
    String.length "hairline" = 8 ∧ String.length "black" = 5 ∧
    pyIndex weight_names "hair" = 0 ∧
    get_attr_score_f "HairlineBlack" weight_names "regular" = 13 := by decide

/-- C6 amended: the width vocabulary ends in the single token "xwide" (not
an "extra-wide" synonym group) and the weight vocabulary starts with
"hair" (not "hairline"); on the grouped width axis the score is the
position of the matching entry maximal in the Python order on
`(number of synonyms, entry)`, with fallback positions 4 (width) and 7
(weight) when nothing matches. -/
theorem vocab_and_grouped_rule :
    width_names = [["extracondensed", "extracond", "xcondensed", "xcond"], ["narrow"],
      ["condensed", "cond", "cnd"], ["semicondensed", "semicond", "semicnd", "semicn"],
      ["normal"], ["semiextended", "semiext"], ["extended"], ["expanded"],
      ["wide"], ["xwide"]] ∧
    weight_names = ["hair", "ultralight", "thin", "extralight", "light", "semilight",
      "book", "regular", "medium", "semibold", "bold", "extrabold", "heavy", "black",
      "ultra", "fat"] ∧
    (∀ name : String, axis_matches_g name width_names 0 ≠ [] →
      ∃ grp, grp ∈ width_names ∧ grp.any (fun v => matches_token name v) = true ∧
        get_attr_score_g name width_names ["normal"] = pyIndex width_names grp ∧
        ∀ g2 ∈ width_names, g2.any (fun v => matches_token name v) = true →
          pairLeG (g2.length, g2) (grp.length, grp) = true) ∧
    (∀ name : String, axis_matches_g name width_names 0 = [] →
      get_attr_score_g name width_names ["normal"] = 4) ∧
    (∀ name : String, axis_matches_f name weight_names 0 = [] →
      get_attr_score_f name weight_names "regular" = 7) := by
  refine ⟨rfl, rfl, ?_, ?_, ?_⟩
  · intro name hne
    rcases find_longest_match_g_spec name width_names hne with ⟨grp, h1, h2, h3, h4⟩
    refine ⟨grp, h1, h2, ?_, h4⟩
    rw [← h3]
    show (if axis_matches_g name width_names 0 = [] then pyIndex width_names ["normal"]
        else find_longest_match_g width_names (axis_matches_g name width_names 0)) = _
    rw [if_neg hne]
  · intro name he
    rw [get_attr_score_g_empty name width_names ["normal"] he]
    decide
  · intro name he
    rw [get_attr_score_f_empty name weight_names "regular" he]
    decide

/-- Witness for the amended C6 at "SemiCondensed" (matches the condensed
group and the semicondensed group; the larger group wins). -/
theorem vocab_and_grouped_rule_witness :
    axis_matches_g "SemiCondensed" width_names 0 ≠ [] ∧
    (∃ grp, grp ∈ width_names ∧
      grp.any (fun v => matches_token "SemiCondensed" v) = true ∧
      get_attr_score_g "SemiCondensed" width_names ["normal"] = pyIndex width_names grp ∧
      ∀ g2 ∈ width_names, g2.any (fun v => matches_token "SemiCondensed" v) = true →
        pairLeG (g2.length, g2) (grp.length, grp) = true) :=
  ⟨by decide, vocab_and_grouped_rule.2.2.1 "SemiCondensed" (by decide)⟩

/-- C7: the known-order scenario: with italics not alternated, the italic
weight component is bumped by 100 (10 becomes 110 for "MyFont-BoldItalic")
so the italic trails all Romans, and the weight vocabulary orders Light
(4) before Regular (7) before Bold (10). -/
theorem known_order_scenario :
    sort_ps_names ["MyFont-Bold", "MyFont-Regular", "MyFont-Light", "MyFont-BoldItalic"]
      false = ["MyFont-Light", "MyFont-Regular", "MyFont-Bold", "MyFont-BoldItalic"] ∧
    score_tuple "MyFont-Light" false = (6, 4, 4, 0, 0) ∧
    score_tuple "MyFont-Regular" false = (6, 4, 7, 0, 0) ∧
    score_tuple "MyFont-Bold" false = (6, 4, 10, 0, 0) ∧
    score_tuple "MyFont-BoldItalic" false = (6, 4, 110, 0, 1) := by decide

/-- C8: `sortNames` returns a permutation of its input (same multiset,
same length); equal names end up adjacent (any entry lying between two
equal entries equals them), and within a group of equal integer sort keys
the names appear in ascending Python string order. -/
theorem sortNames_permutation (l : List String) (a : Bool) :
    List.Perm (sort_ps_names l a) l ∧
    (sort_ps_names l a).length = l.length ∧
    List.Pairwise (fun x y => scoreInt x a = scoreInt y a → strLeB x y = true)
      (sort_ps_names l a) ∧
    (∀ i j k : Fin (sort_ps_names l a).length, i ≤ j → j ≤ k →
      (sort_ps_names l a).get i = (sort_ps_names l a).get k →
      (sort_ps_names l a).get j = (sort_ps_names l a).get i) := by
  have hperm := sort_ps_names_perm l a
  have hpw := sort_ps_names_pairwise l a
  refine ⟨hperm, hperm.length_eq, ?_, ?_⟩
  · refine hpw.imp ?_
    intro x y hxy hsc
    rcases hxy with h | ⟨h1, h2⟩
    · exact absurd hsc (by omega)
    · exact h2
  · intro i j k hij hjk hik
    have hget := List.pairwise_iff_get.mp hpw
    by_cases he1 : i = j
    · subst he1
      rfl
    · have hij2 : i < j := lt_of_le_of_ne hij he1
      by_cases he2 : j = k
      · subst he2
        exact hik.symm
      · have hjk2 : j < k := lt_of_le_of_ne hjk he2
        have r1 := hget i j hij2
        have r2 := hget j k hjk2
        rw [← hik] at r2
        exact (keyLe_antisymm a _ _ r1 r2).symm

/-- Witness for C8 at a concrete list with a duplicate name. -/
theorem sortNames_permutation_witness :
    List.Perm (sort_ps_names ["MyFont-Bold", "MyFont-Light", "MyFont-Bold"] false)
      ["MyFont-Bold", "MyFont-Light", "MyFont-Bold"] :=
  (sortNames_permutation ["MyFont-Bold", "MyFont-Light", "MyFont-Bold"] false).1

/-- C9: the embedded score and sort functions are total Lean functions;
in particular the empty list sorts to the empty list, any singleton sorts
to itself, and the output always has the input's length. -/
theorem sortNames_total :
    (∀ a : Bool, sort_ps_names [] a = []) ∧
    (∀ (x : String) (a : Bool), sort_ps_names [x] a = [x]) ∧
    (∀ (l : List String) (a : Bool), (sort_ps_names l a).length = l.length) :=
  ⟨fun _ => rfl, fun _ _ => rfl, fun l a => (sort_ps_names_perm l a).length_eq⟩

/-- C10: the output of `sortNames` depends only on the multiset of input
names: permuting the input does not change the output, because the output
is the unique ordering of that multiset that is sorted by integer key and
then by name. -/
theorem sortNames_input_order_invariant (l l2 : List String) (a : Bool)
    (h : List.Perm l l2) : sort_ps_names l a = sort_ps_names l2 a := by
  have hp : List.Perm (sort_ps_names l a) (sort_ps_names l2 a) :=
    ((sort_ps_names_perm l a).trans h).trans (sort_ps_names_perm l2 a).symm
  haveI : IsAntisymm String (keyLe a) :=
    ⟨fun x y hxy hyx => keyLe_antisymm a x y hxy hyx⟩
  exact List.eq_of_perm_of_sorted hp (sort_ps_names_pairwise l a)
    (sort_ps_names_pairwise l2 a)

/-- Witness for C10 at a concrete pair of permuted inputs. -/
theorem sortNames_input_order_invariant_witness :
    List.Perm ["MyFont-Bold", "MyFont-Light"] ["MyFont-Light", "MyFont-Bold"] ∧
    sort_ps_names ["MyFont-Bold", "MyFont-Light"] false =
      sort_ps_names ["MyFont-Light", "MyFont-Bold"] false :=
  ⟨by decide,
    sortNames_input_order_invariant ["MyFont-Bold", "MyFont-Light"]
      ["MyFont-Light", "MyFont-Bold"] false (by decide)⟩

